import Mathlib

/-!
Verification of the Poisson binomial PMF engine
(`analysis/poisson_binomial.py`).

The Python module computes the probability mass function of a Poisson
binomial distribution, exactly (by iterated convolution of the probability
generating function) or approximately (refined normal approximation with a
skewness correction).

Embedding choices:
* numpy float arrays of probabilities are modelled as `List ℚ` (exact
  arithmetic; claims about floating tolerance become exact equalities);
* the scipy standard normal CDF `norm.cdf` and PDF `norm.pdf` are
  transcendental external-library functions, so the approximation routine
  takes them as explicit function parameters `Phi phi : ℚ → ℚ`;
* `np.sqrt` in the moment computation forces that function into `ℝ`
  (`Real.sqrt`);
* Python integer helpers are modelled faithfully: `np.floor` is `Int.floor`
  and `round`/`np.round` is round-half-to-even (`rnd` below).
-/

namespace PoissonBinomial

/-- The `PMF` dataclass of the source: `start` is the minimal value of the
distribution and `probabilities[i]` is the probability of value `start + i`. -/
structure PMF where
  start : ℤ
  probabilities : List ℚ
deriving DecidableEq

/-- One iteration of the loop in `compute_pmf`: from the current coefficient
vector `v` build `next` of length `len v + 1` with
`next[:-1] = v * (1 - p)` and `next[1:] += v * p`. -/
def convolveStep (v : List ℚ) (p : ℚ) : List ℚ :=
  List.zipWith (· + ·) (v.map (fun c => c * (1 - p)) ++ [0])
    (0 :: v.map (fun c => c * p))

/-- `compute_pmf`: exact Poisson binomial PMF by expanding the probability
generating function, starting from the vector `[1]`. -/
def compute_pmf (probabilities : List ℚ) : PMF :=
  ⟨0, probabilities.foldl convolveStep [1]⟩

/-- Addition of polynomials given as coefficient lists (used only to state
what the spec means by a polynomial product). -/
def polyAdd : List ℚ → List ℚ → List ℚ
  | [], b => b
  | a, [] => a
  | x :: xs, y :: ys => (x + y) :: polyAdd xs ys

/-- Multiplication (convolution) of polynomials given as coefficient lists. -/
def polyMul : List ℚ → List ℚ → List ℚ
  | [], _ => []
  | x :: xs, b => polyAdd (b.map (fun c => x * c)) (0 :: polyMul xs b)

/-- Modelled from the spec: the coefficients of the polynomial product of
the per-trial generating functions `(1 - p + p * x)`. -/
def pgfProduct (ps : List ℚ) : List ℚ :=
  ps.foldl (fun acc p => polyMul acc [1 - p, p]) [1]

lemma polyAdd_nil_left (b : List ℚ) : polyAdd [] b = b := by
  cases b <;> rfl

lemma polyAdd_cons (x y : ℚ) (xs ys : List ℚ) :
    polyAdd (x :: xs) (y :: ys) = (x + y) :: polyAdd xs ys := rfl

lemma polyAdd_single (q h : ℚ) (t : List ℚ) :
    polyAdd [q] (h :: t) = (q + h) :: t := by
  simp [polyAdd, polyAdd_nil_left]

lemma zipWith_shift_eq_polyAdd (p : ℚ) :
    ∀ (v : List ℚ) (q : ℚ),
      List.zipWith (· + ·) (v.map (fun c => c * (1 - p)) ++ [0])
          (q :: v.map (fun c => c * p))
        = polyAdd [q] (polyMul v [1 - p, p])
  | [], q => by simp [polyMul, polyAdd]
  | d :: ds, q => by
    have ih := zipWith_shift_eq_polyAdd p ds (d * p)
    simp only [List.map_cons, List.cons_append, List.zipWith_cons_cons] at *
    rw [ih]
    have hmul : polyMul (d :: ds) [1 - p, p]
        = (d * (1 - p) + 0) :: polyAdd [d * p] (polyMul ds [1 - p, p]) := by
      simp [polyMul, polyAdd_cons]
    rw [hmul]
    rcases h : polyAdd [d * p] (polyMul ds [1 - p, p]) with _ | ⟨z, zs⟩
    · simp [polyAdd, polyAdd_single]
      ring
    · rw [polyAdd_single]
      simp only [List.cons.injEq, and_true]
      ring

lemma polyMul_linear_ne_nil (v : List ℚ) (hv : v ≠ []) (p : ℚ) :
    polyMul v [1 - p, p] ≠ [] := by
  rcases v with _ | ⟨d, ds⟩
  · exact absurd rfl hv
  · simp only [polyMul, List.map_cons, List.map_nil]
    cases polyMul ds [1 - p, p] <;> simp [polyAdd]

lemma convolveStep_eq_polyMul (v : List ℚ) (hv : v ≠ []) (p : ℚ) :
    convolveStep v p = polyMul v [1 - p, p] := by
  unfold convolveStep
  rw [zipWith_shift_eq_polyAdd p v 0]
  rcases h : polyMul v [1 - p, p] with _ | ⟨z, zs⟩
  · exact absurd h (polyMul_linear_ne_nil v hv p)
  · rw [polyAdd_single]
    simp

lemma convolveStep_length (v : List ℚ) (p : ℚ) :
    (convolveStep v p).length = v.length + 1 := by
  simp [convolveStep]

lemma convolveStep_ne_nil (v : List ℚ) (p : ℚ) : convolveStep v p ≠ [] := by
  intro h
  have := convolveStep_length v p
  rw [h] at this
  simp at this

lemma foldl_convolveStep_eq_polyMul :
    ∀ (ps : List ℚ) (v : List ℚ), v ≠ [] →
      ps.foldl convolveStep v = ps.foldl (fun acc p => polyMul acc [1 - p, p]) v
  | [], v, _ => rfl
  | p :: ps, v, hv => by
    simp only [List.foldl_cons]
    rw [← convolveStep_eq_polyMul v hv p]
    exact foldl_convolveStep_eq_polyMul ps (convolveStep v p)
      (convolveStep_ne_nil v p)

lemma sum_zipWith_add :
    ∀ (a b : List ℚ), a.length = b.length →
      (List.zipWith (· + ·) a b).sum = a.sum + b.sum
  | [], [], _ => by simp
  | [], _ :: _, h => by simp at h
  | _ :: _, [], h => by simp at h
  | x :: xs, y :: ys, h => by
    simp only [List.length_cons, Nat.add_right_cancel_iff] at h
    simp only [List.zipWith_cons_cons, List.sum_cons]
    rw [sum_zipWith_add xs ys h]
    ring

lemma sum_map_mul_const (l : List ℚ) (c : ℚ) :
    (l.map (fun x => x * c)).sum = l.sum * c := by
  induction l with
  | nil => simp
  | cons x xs ih => simp [ih]; ring

lemma convolveStep_sum (v : List ℚ) (p : ℚ) :
    (convolveStep v p).sum = v.sum := by
  unfold convolveStep
  rw [sum_zipWith_add]
  · simp [sum_map_mul_const]
    ring
  · simp

lemma foldl_convolveStep_length :
    ∀ (ps : List ℚ) (v : List ℚ),
      (ps.foldl convolveStep v).length = v.length + ps.length
  | [], v => by simp
  | p :: ps, v => by
    simp only [List.foldl_cons, List.length_cons]
    rw [foldl_convolveStep_length ps (convolveStep v p), convolveStep_length]
    omega

lemma foldl_convolveStep_sum :
    ∀ (ps : List ℚ) (v : List ℚ), (ps.foldl convolveStep v).sum = v.sum
  | [], _ => rfl
  | p :: ps, v => by
    simp only [List.foldl_cons]
    rw [foldl_convolveStep_sum ps (convolveStep v p), convolveStep_sum]

/-- `compute_exp_std_skewness`: closed-form mean, standard deviation and
skewness of the Poisson binomial distribution. `np.sqrt` forces the model
into `ℝ` (`Real.sqrt`); the division by `std ** 3` is written exactly as in
the source, with no guard against `std = 0`. -/
noncomputable def compute_exp_std_skewness (probabilities : List ℝ) :
    ℝ × ℝ × ℝ :=
  let exp := probabilities.sum
  let std := Real.sqrt ((probabilities.map (fun p => p * (1 - p))).sum)
  let skewness :=
    (probabilities.map (fun p => p * (1 - p) * (1 - 2 * p))).sum / std ^ 3
  (exp, std, skewness)

/-- Round half to even, the rounding used by both Python's built-in `round`
and `np.round` (applied in the source as `int(round(mean))` and
`int(np.round(mean + 8 * sigma))`). -/
def rnd (q : ℚ) : ℤ :=
  let f := ⌊q⌋
  let r := q - f
  if r < 1/2 then f
  else if 1/2 < r then f + 1
  else if f % 2 = 0 then f else f + 1

/-- `np.clip(x, 0, 1)`. -/
def clip01 (q : ℚ) : ℚ := min (max q 0) 1

/-- `np.arange(a, b)` on integers: the list `[a, a+1, ..., b-1]`
(empty when `b ≤ a`). -/
def arangeZ (a b : ℤ) : List ℤ :=
  (List.range (b - a).toNat).map (fun (i : ℕ) => a + (i : ℤ))

/-- `np.diff`: the list of differences of consecutive elements. -/
def diffList : List ℚ → List ℚ
  | [] => []
  | [_] => []
  | x :: y :: l => (y - x) :: diffList (y :: l)

/-- The corrected CDF `G` of the source,
`G(x) = norm.cdf(x) + skewness * (1 - x*x) * norm.pdf(x) / 6`, with the
scipy standard normal CDF and PDF passed in as `Phi` and `phi`. -/
def G (skewness : ℚ) (Phi phi : ℚ → ℚ) (x : ℚ) : ℚ :=
  Phi x + skewness * (1 - x * x) * phi x / 6

/-- `compute_pmf_approximation`: refined normal approximation of the
Poisson binomial PMF. The scipy functions `norm.cdf` and `norm.pdf` are
abstract parameters `Phi` and `phi`. -/
def compute_pmf_approximation (Phi phi : ℚ → ℚ) (mean sigma skewness : ℚ)
    (n : ℤ) : PMF :=
  if sigma = 0 then ⟨rnd mean, [1]⟩
  else
    let start := max 0 ⌊mean - 8 * sigma⌋
    let stop := min n (rnd (mean + 8 * sigma))
    let xs := arangeZ (start - 1) (stop + 1)
    let cdf_values := xs.map
      (fun (i : ℤ) => G skewness Phi phi (((i : ℚ) + 1/2 - mean) / sigma))
    let clipped := cdf_values.map clip01
    ⟨start, diffList clipped⟩

/-- Claim C1: `compute_pmf` computes exactly the coefficient list of the
polynomial product of the per-trial generating functions `(1 - p + p*x)`
over all trials, and in particular `compute_pmf [0.5] = PMF 0 [0.5, 0.5]`
and `compute_pmf [1, 1] = PMF 0 [0, 0, 1]`. -/
theorem compute_pmf_is_pgf_product :
    ∀ ps : List ℚ, compute_pmf ps = ⟨0, pgfProduct ps⟩ ∧
      compute_pmf [1/2] = ⟨0, [1/2, 1/2]⟩ ∧
      compute_pmf [1, 1] = ⟨0, [0, 0, 1]⟩ := by
  intro ps
  refine ⟨?_, ?_, ?_⟩
  · unfold compute_pmf pgfProduct
    rw [foldl_convolveStep_eq_polyMul ps [1] (by simp)]
  · simp only [compute_pmf, convolveStep, List.foldl_cons, List.foldl_nil,
      List.map_cons, List.map_nil, List.cons_append, List.nil_append,
      List.zipWith_cons_cons, List.zipWith_nil_right, PMF.mk.injEq,
      List.cons.injEq]
    norm_num
  · simp only [compute_pmf, convolveStep, List.foldl_cons, List.foldl_nil,
      List.map_cons, List.map_nil, List.cons_append, List.nil_append,
      List.zipWith_cons_cons, List.zipWith_nil_right, PMF.mk.injEq,
      List.cons.injEq]
    norm_num

/-- Claim C2: `compute_pmf` on a sequence of length n returns a PMF with
start 0 and exactly n+1 probability entries summing exactly to 1 (the model
uses exact rational arithmetic), and `compute_pmf [] = PMF 0 [1]`. -/
theorem compute_pmf_shape :
    ∀ ps : List ℚ, (compute_pmf ps).start = 0 ∧
      (compute_pmf ps).probabilities.length = ps.length + 1 ∧
      (compute_pmf ps).probabilities.sum = 1 ∧
      compute_pmf ([] : List ℚ) = ⟨0, [1]⟩ := by
  intro ps
  refine ⟨rfl, ?_, ?_, rfl⟩
  · unfold compute_pmf
    simp [foldl_convolveStep_length]
    omega
  · unfold compute_pmf
    simp [foldl_convolveStep_sum]

/-- Claim C4: with `sigma = 0`, `compute_pmf_approximation` returns the
point mass `PMF (round mean) [1]` for every `mean`, `skewness` and `n`,
independently of the CDF and PDF (the correction formula is never
evaluated); in particular at `mean = 3, n = 10` it returns `PMF 3 [1]`. -/
theorem approx_sigma_zero_point_mass :
    ∀ (Phi phi : ℚ → ℚ) (mean skewness : ℚ) (n : ℤ),
      compute_pmf_approximation Phi phi mean 0 skewness n = ⟨rnd mean, [1]⟩ ∧
      compute_pmf_approximation Phi phi 3 0 0 10 = ⟨3, [1]⟩ := by
  intro Phi phi mean skewness n
  constructor
  · simp [compute_pmf_approximation]
  · simp only [compute_pmf_approximation, if_pos rfl, PMF.mk.injEq, and_true]
    have h3 : ⌊(3 : ℚ)⌋ = 3 := by norm_num
    simp [rnd, h3]

/-- Claim C5: on a probability sequence with at least one entry strictly
between 0 and 1, `compute_exp_std_skewness` returns the mean `Σ p`, the
standard deviation `√(Σ p(1-p))` (which is then strictly positive), and a
skewness that genuinely equals `Σ p(1-p)(1-2p)` divided by `std³`; in
particular on `[0.5, 0.5]` it returns `(1, √0.5, 0)`. -/
theorem moments_formula (ps : List ℝ)
    (h1 : ∀ p ∈ ps, 0 ≤ p ∧ p ≤ 1)
    (h2 : ∃ p ∈ ps, 0 < p ∧ p < 1) :
    (compute_exp_std_skewness ps).1 = ps.sum ∧
    (compute_exp_std_skewness ps).2.1
      = Real.sqrt ((ps.map (fun p => p * (1 - p))).sum) ∧
    0 < (compute_exp_std_skewness ps).2.1 ∧
    (compute_exp_std_skewness ps).2.2 * (compute_exp_std_skewness ps).2.1 ^ 3
      = (ps.map (fun p => p * (1 - p) * (1 - 2 * p))).sum ∧
    compute_exp_std_skewness [1/2, 1/2] = (1, Real.sqrt (1/2), 0) := by
  have hvar : 0 < (ps.map (fun p => p * (1 - p))).sum := by
    obtain ⟨p0, hmem, hp0, hp1⟩ := h2
    have hnn : ∀ x ∈ ps.map (fun p => p * (1 - p)), 0 ≤ x := by
      intro x hx
      rw [List.mem_map] at hx
      obtain ⟨p, hp, rfl⟩ := hx
      have hb := h1 p hp
      nlinarith [hb.1, hb.2]
    have hx0 : p0 * (1 - p0) ∈ ps.map (fun p => p * (1 - p)) :=
      List.mem_map_of_mem _ hmem
    have hpos : 0 < p0 * (1 - p0) := by nlinarith
    have hle := List.single_le_sum hnn _ hx0
    linarith
  have hstdpos : 0 < (compute_exp_std_skewness ps).2.1 := by
    simp only [compute_exp_std_skewness]
    exact Real.sqrt_pos.mpr hvar
  refine ⟨rfl, rfl, hstdpos, ?_, ?_⟩
  · simp only [compute_exp_std_skewness]
    exact div_mul_cancel₀ _ (by positivity)
  · simp only [compute_exp_std_skewness, List.map_cons, List.map_nil,
      List.sum_cons, List.sum_nil, Prod.mk.injEq]
    norm_num

/-- Witness for C5 at the concrete input `[0.5, 0.5]`. -/
theorem moments_formula_witness :
    compute_exp_std_skewness [1/2, 1/2] = (1, Real.sqrt (1/2), 0) :=
  (moments_formula [1/2, 1/2]
    (by intro p hp; rcases List.mem_cons.mp hp with rfl | hp2
        · norm_num
        · rcases List.mem_cons.mp hp2 with rfl | hp3
          · norm_num
          · simp at hp3)
    ⟨1/2, List.mem_cons_self _ _, by norm_num⟩).2.2.2.2

/-- Claim C6: when the variance `Σ p(1-p)` is 0, `compute_exp_std_skewness`
returns `std = 0` and a skewness obtained by dividing by `0` (in the source
this is an unguarded floating division by `std ** 3 = 0`; here division by
zero is Lean's total division), rather than raising. -/
theorem moments_zero_variance (ps : List ℝ)
    (hv : (ps.map (fun p => p * (1 - p))).sum = 0) :
    (compute_exp_std_skewness ps).2.1 = 0 ∧
    (compute_exp_std_skewness ps).2.2
      = (ps.map (fun p => p * (1 - p) * (1 - 2 * p))).sum / 0 := by
  constructor
  · simp only [compute_exp_std_skewness]
    rw [hv, Real.sqrt_zero]
  · simp only [compute_exp_std_skewness]
    rw [hv, Real.sqrt_zero]
    norm_num

/-- Witness for C6 at the concrete input `[1]` (variance 0). -/
theorem moments_zero_variance_witness :
    (compute_exp_std_skewness [1]).2.1 = 0 :=
  (moments_zero_variance [1] (by simp)).1

/-- Counterexample to claim C7: on the out-of-range probability `1.5`,
`compute_pmf` does not fail with an invalid-input signal; it silently
returns the malformed PMF `⟨0, [-0.5, 1.5]⟩`, which has a negative entry. -/
theorem no_validation_cex :
    compute_pmf [3/2] = ⟨0, [-(1/2), 3/2]⟩ ∧ (-(1/2) : ℚ) < 0 := by
  constructor
  · simp only [compute_pmf, convolveStep, List.foldl_cons, List.foldl_nil,
      List.map_cons, List.map_nil, List.cons_append, List.nil_append,
      List.zipWith_cons_cons, List.zipWith_nil_right, PMF.mk.injEq,
      List.cons.injEq]
    norm_num
  · norm_num

/-- Claim C7 amended: neither function validates its inputs. An
out-of-range probability is accepted by `compute_pmf`, which returns a
(malformed) PMF of the usual shape, and a negative `n` is accepted by
`compute_pmf_approximation`, which returns a PMF (here with an empty
probability list) — no invalid-input signal is ever raised. -/
theorem no_input_validation :
    compute_pmf [3/2] = ⟨0, [-(1/2), 3/2]⟩ ∧
    (∀ ps : List ℚ, (compute_pmf ps).probabilities.length = ps.length + 1) ∧
    (∀ Phi phi : ℚ → ℚ,
      compute_pmf_approximation Phi phi 0 1 0 (-1) = ⟨0, []⟩) := by
  refine ⟨?_, ?_, ?_⟩
  · simp only [compute_pmf, convolveStep, List.foldl_cons, List.foldl_nil,
      List.map_cons, List.map_nil, List.cons_append, List.nil_append,
      List.zipWith_cons_cons, List.zipWith_nil_right, PMF.mk.injEq,
      List.cons.injEq]
    norm_num
  · intro ps
    simp [compute_pmf, foldl_convolveStep_length]
    omega
  · intro Phi phi
    have hf : ⌊(0 : ℚ) - 8 * 1⌋ = -8 := by norm_num
    have hr : rnd (0 + 8 * 1) = 8 := by norm_num [rnd]
    simp only [compute_pmf_approximation, one_ne_zero, if_false, hf, hr]
    norm_num
    simp [arangeZ, diffList]

lemma arangeZ_length (a b : ℤ) : (arangeZ a b).length = (b - a).toNat := by
  simp [arangeZ]

lemma arangeZ_getElem? (a b : ℤ) (j : ℕ) (h : (j : ℤ) < b - a) :
    (arangeZ a b)[j]? = some (a + (j : ℤ)) := by
  have hj : j < (b - a).toNat := by omega
  simp [arangeZ, List.getElem?_map, List.getElem?_range, hj]

lemma diffList_length : ∀ l : List ℚ, (diffList l).length = l.length - 1
  | [] => rfl
  | [_] => rfl
  | x :: y :: t => by
    simp only [diffList, List.length_cons]
    rw [diffList_length (y :: t)]
    simp

lemma diffList_getElem? :
    ∀ (l : List ℚ) (j : ℕ) (x y : ℚ),
      l[j]? = some x → l[j + 1]? = some y → (diffList l)[j]? = some (y - x)
  | [], j, x, y, hx, _ => by simp at hx
  | [a], j, x, y, _, hy => by
    rw [List.getElem?_cons_succ] at hy
    simp at hy
  | a :: b :: t, 0, x, y, hx, hy => by
    rw [List.getElem?_cons_zero] at hx
    rw [List.getElem?_cons_succ, List.getElem?_cons_zero] at hy
    simp only [Option.some.injEq] at hx hy
    subst hx
    subst hy
    simp [diffList]
  | a :: b :: t, j + 1, x, y, hx, hy => by
    rw [List.getElem?_cons_succ] at hx hy
    show ((b - a) :: diffList (b :: t))[j + 1]? = some (y - x)
    rw [List.getElem?_cons_succ]
    exact diffList_getElem? (b :: t) j x y hx hy

lemma clip01_nonneg (q : ℚ) : 0 ≤ clip01 q :=
  le_min (le_trans (le_max_right q 0) (le_refl _)) zero_le_one

lemma clip01_le_one (q : ℚ) : clip01 q ≤ 1 := min_le_right _ _

/-- Unfolding of the `sigma ≠ 0` branch of `compute_pmf_approximation`. -/
lemma compute_pmf_approximation_pos (Phi phi : ℚ → ℚ)
    (mean sigma skewness : ℚ) (n : ℤ) (h : sigma ≠ 0) :
    compute_pmf_approximation Phi phi mean sigma skewness n =
      ⟨max 0 ⌊mean - 8 * sigma⌋,
        diffList
          (((arangeZ (max 0 ⌊mean - 8 * sigma⌋ - 1)
                (min n (rnd (mean + 8 * sigma)) + 1)).map
              (fun (i : ℤ) => G skewness Phi phi (((i : ℚ) + 1/2 - mean) / sigma))).map
            clip01)⟩ := by
  simp only [compute_pmf_approximation, if_neg h]

/-- Claim C3: for `sigma > 0`, `compute_pmf_approximation` uses the window
`[max 0 ⌊mean - 8σ⌋, min n (round (mean + 8σ))]`, and for each integer `k`
in that window the entry at index `k - start` is the difference of the
clipped corrected CDF `G` at the standardized half-integer-shifted points
`(k + 0.5 - mean)/σ` and `(k - 0.5 - mean)/σ`. -/
theorem approx_refined_normal_formula (Phi phi : ℚ → ℚ)
    (mean sigma skewness : ℚ) (n : ℤ) (k : ℤ)
    (hs : 0 < sigma)
    (hk1 : max 0 ⌊mean - 8 * sigma⌋ ≤ k)
    (hk2 : k ≤ min n (rnd (mean + 8 * sigma))) :
    (compute_pmf_approximation Phi phi mean sigma skewness n).start
      = max 0 ⌊mean - 8 * sigma⌋ ∧
    (compute_pmf_approximation Phi phi mean sigma skewness
        n).probabilities[(k - max 0 ⌊mean - 8 * sigma⌋).toNat]?
      = some (clip01 (G skewness Phi phi (((k : ℚ) + 1/2 - mean) / sigma))
          - clip01 (G skewness Phi phi (((k : ℚ) - 1/2 - mean) / sigma))) := by
  have hs' : sigma ≠ 0 := ne_of_gt hs
  rw [compute_pmf_approximation_pos Phi phi mean sigma skewness n hs']
  refine ⟨rfl, ?_⟩
  have hmap :
      ((arangeZ (max 0 ⌊mean - 8 * sigma⌋ - 1)
            (min n (rnd (mean + 8 * sigma)) + 1)).map
          (fun (i : ℤ) => G skewness Phi phi (((i : ℚ) + 1/2 - mean) / sigma))).map
        clip01
      = (arangeZ (max 0 ⌊mean - 8 * sigma⌋ - 1)
            (min n (rnd (mean + 8 * sigma)) + 1)).map
          (fun (i : ℤ) => clip01
            (G skewness Phi phi (((i : ℚ) + 1/2 - mean) / sigma))) := by
    rw [List.map_map]
    rfl
  rw [hmap]
  have hj : (((k - max 0 ⌊mean - 8 * sigma⌋).toNat : ℕ) : ℤ)
      = k - max 0 ⌊mean - 8 * sigma⌋ := Int.toNat_of_nonneg (by omega)
  have hx : ((arangeZ (max 0 ⌊mean - 8 * sigma⌋ - 1)
        (min n (rnd (mean + 8 * sigma)) + 1)).map
          (fun (i : ℤ) => clip01
            (G skewness Phi phi (((i : ℚ) + 1/2 - mean) / sigma))))[
        (k - max 0 ⌊mean - 8 * sigma⌋).toNat]?
      = some (clip01
          (G skewness Phi phi ((((k - 1 : ℤ) : ℚ) + 1/2 - mean) / sigma))) := by
    rw [List.getElem?_map, arangeZ_getElem? _ _ _ (by omega)]
    simp only [Option.map_some']
    have hidx : max 0 ⌊mean - 8 * sigma⌋ - 1
        + (((k - max 0 ⌊mean - 8 * sigma⌋).toNat : ℕ) : ℤ) = k - 1 := by omega
    rw [hidx]
  have hy : ((arangeZ (max 0 ⌊mean - 8 * sigma⌋ - 1)
        (min n (rnd (mean + 8 * sigma)) + 1)).map
          (fun (i : ℤ) => clip01
            (G skewness Phi phi (((i : ℚ) + 1/2 - mean) / sigma))))[
        (k - max 0 ⌊mean - 8 * sigma⌋).toNat + 1]?
      = some (clip01
          (G skewness Phi phi (((k : ℤ) + 1/2 - mean) / sigma))) := by
    rw [List.getElem?_map, arangeZ_getElem? _ _ _ (by omega)]
    simp only [Option.map_some']
    have hidx : max 0 ⌊mean - 8 * sigma⌋ - 1
        + ((((k - max 0 ⌊mean - 8 * sigma⌋).toNat + 1 : ℕ)) : ℤ) = k := by
      omega
    rw [hidx]
  rw [diffList_getElem? _ _ _ _ hx hy]
  have harg : (((k - 1 : ℤ) : ℚ) + 1/2 - mean) = ((k : ℚ) - 1/2 - mean) := by
    push_cast
    ring
  rw [harg]

/-- Witness for C3 at `Phi = phi = 0`, `mean = 0`, `sigma = 1`,
`skewness = 0`, `n = 5`, `k = 2`. -/
theorem approx_refined_normal_formula_witness :
    (compute_pmf_approximation (fun _ => 0) (fun _ => 0) 0 1 0 5).start
      = max 0 ⌊(0 : ℚ) - 8 * 1⌋ ∧
    (compute_pmf_approximation (fun _ => 0) (fun _ => 0) 0 1 0
        5).probabilities[((2 : ℤ) - max 0 ⌊(0 : ℚ) - 8 * 1⌋).toNat]?
      = some (clip01 (G 0 (fun _ => 0) (fun _ => 0) ((((2 : ℤ) : ℚ) + 1/2 - 0) / 1))
          - clip01 (G 0 (fun _ => 0) (fun _ => 0) ((((2 : ℤ) : ℚ) - 1/2 - 0) / 1))) :=
  approx_refined_normal_formula (fun _ => 0) (fun _ => 0) 0 1 0 5 2
    (by norm_num)
    (by norm_num)
    (by norm_num [rnd])

/-- Counterexample to claim C9: in the `sigma = 0` branch the point mass is
placed at `round(mean)` with no clamping to `[0, n]`; with `mean = -5`,
`n = 10` the returned PMF has `start = -5 < 0`, so its support is not
contained in `[0, n]`. -/
theorem approx_support_cex :
    (compute_pmf_approximation (fun _ => 0) (fun _ => 0) (-5) 0 0 10).start = -5
      ∧ (-5 : ℤ) < 0 := by
  refine ⟨?_, by norm_num⟩
  simp only [compute_pmf_approximation, if_pos rfl]
  norm_num [rnd]

/-- Claim C9 amended: for `sigma ≠ 0` the support of the returned PMF is
contained in `[0, n]`: `start` is the computed lower bound, which is
non-negative, and every index carrying mass is at most `n`. (The `sigma = 0`
branch places its point mass at `round(mean)`, which need not lie in
`[0, n]`.) -/
theorem approx_support (Phi phi : ℚ → ℚ) (mean sigma skewness : ℚ) (n : ℤ)
    (hs : sigma ≠ 0) :
    (compute_pmf_approximation Phi phi mean sigma skewness n).start
      = max 0 ⌊mean - 8 * sigma⌋ ∧
    0 ≤ (compute_pmf_approximation Phi phi mean sigma skewness n).start ∧
    ∀ k : ℤ,
      (compute_pmf_approximation Phi phi mean sigma skewness n).start ≤ k →
      k < (compute_pmf_approximation Phi phi mean sigma skewness n).start
        + ((compute_pmf_approximation Phi phi mean sigma skewness
            n).probabilities.length : ℤ) →
      0 ≤ k ∧ k ≤ n := by
  rw [compute_pmf_approximation_pos Phi phi mean sigma skewness n hs]
  refine ⟨rfl, le_max_left 0 _, ?_⟩
  intro k h1 h2
  dsimp only at h1 h2
  rw [diffList_length, List.length_map, List.length_map, arangeZ_length] at h2
  omega

/-- Witness for C9 (amended) at `sigma = 1`. -/
theorem approx_support_witness :
    (compute_pmf_approximation (fun _ => 0) (fun _ => 0) 0 1 0 5).start
      = max 0 ⌊(0 : ℚ) - 8 * 1⌋ ∧
    0 ≤ (compute_pmf_approximation (fun _ => 0) (fun _ => 0) 0 1 0 5).start :=
  ⟨(approx_support (fun _ => 0) (fun _ => 0) 0 1 0 5 (by norm_num)).1,
   (approx_support (fun _ => 0) (fun _ => 0) 0 1 0 5 (by norm_num)).2.1⟩

lemma zipWith_add_nonneg :
    ∀ (a b : List ℚ), (∀ x ∈ a, 0 ≤ x) → (∀ x ∈ b, 0 ≤ x) →
      ∀ q ∈ List.zipWith (· + ·) a b, 0 ≤ q
  | [], _, _, _, q, hq => by simp at hq
  | _ :: _, [], _, _, q, hq => by simp at hq
  | x :: xs, y :: ys, ha, hb, q, hq => by
    rw [List.zipWith_cons_cons, List.mem_cons] at hq
    rcases hq with rfl | hq
    · exact add_nonneg (ha x (List.mem_cons_self _ _)) (hb y (List.mem_cons_self _ _))
    · exact zipWith_add_nonneg xs ys
        (fun z hz => ha z (List.mem_cons_of_mem _ hz))
        (fun z hz => hb z (List.mem_cons_of_mem _ hz)) q hq

lemma convolveStep_nonneg (v : List ℚ) (p : ℚ)
    (hv : ∀ q ∈ v, 0 ≤ q) (hp0 : 0 ≤ p) (hp1 : p ≤ 1) :
    ∀ q ∈ convolveStep v p, 0 ≤ q := by
  apply zipWith_add_nonneg
  · intro x hx
    rcases List.mem_append.mp hx with hx | hx
    · obtain ⟨c, hc, rfl⟩ := List.mem_map.mp hx
      exact mul_nonneg (hv c hc) (by linarith)
    · simp only [List.mem_singleton] at hx
      simp [hx]
  · intro x hx
    rcases List.mem_cons.mp hx with rfl | hx
    · exact le_refl 0
    · obtain ⟨c, hc, rfl⟩ := List.mem_map.mp hx
      exact mul_nonneg (hv c hc) hp0

lemma foldl_convolveStep_nonneg :
    ∀ (ps : List ℚ) (v : List ℚ), (∀ p ∈ ps, 0 ≤ p ∧ p ≤ 1) →
      (∀ q ∈ v, 0 ≤ q) → ∀ q ∈ ps.foldl convolveStep v, 0 ≤ q
  | [], v, _, hv => hv
  | p :: ps, v, hps, hv => by
    simp only [List.foldl_cons]
    have hp := hps p (List.mem_cons_self _ _)
    exact foldl_convolveStep_nonneg ps (convolveStep v p)
      (fun x hx => hps x (List.mem_cons_of_mem _ hx))
      (convolveStep_nonneg v p hv hp.1 hp.2)

lemma diffList_bounds :
    ∀ l : List ℚ, (∀ x ∈ l, 0 ≤ x ∧ x ≤ 1) →
      ∀ q ∈ diffList l, -1 ≤ q ∧ q ≤ 1
  | [], _, q, hq => by simp [diffList] at hq
  | [_], _, q, hq => by simp [diffList] at hq
  | x :: y :: t, h, q, hq => by
    rw [diffList, List.mem_cons] at hq
    rcases hq with rfl | hq
    · have hx := h x (List.mem_cons_self _ _)
      have hy := h y (List.mem_cons_of_mem _ (List.mem_cons_self _ _))
      constructor <;> linarith [hx.1, hx.2, hy.1, hy.2]
    · exact diffList_bounds (y :: t)
        (fun z hz => h z (List.mem_cons_of_mem _ hz)) q hq

/-- The two-step monotone rational stand-ins for the scipy normal CDF and
PDF used in the counterexamples below; their values are close to the true
`norm.cdf` and `norm.pdf` at the points where they are sampled. -/
def PhiA : ℚ → ℚ := fun x => if x ≤ 1 then 7/10 else 19/20

/-- Companion PDF stand-in for `PhiA`. -/
def phiA : ℚ → ℚ := fun x => if x ≤ 1 then 7/20 else 13/100

/-- Counterexample to claim C8: on the approximation path a large skewness
makes the corrected CDF `G` non-monotone, and the clipped differences can be
negative. With `mean = 4, sigma = 1, skewness = 10, n = 8` (and CDF/PDF
values mimicking the true normal ones) the entry for outcome 5 is
`-77/240 ≈ -0.32`, far below 0. -/
theorem approx_entries_cex :
    (compute_pmf_approximation PhiA phiA 4 1 10 8).probabilities[5]?
      = some ((-(77/240) : ℚ)) ∧
    ¬ (∀ q ∈ (compute_pmf_approximation PhiA phiA 4 1 10 8).probabilities,
        0 ≤ q) := by
  have h5 : (compute_pmf_approximation PhiA phiA 4 1 10 8).probabilities[5]?
      = some ((-(77/240) : ℚ)) := by
    rw [compute_pmf_approximation_pos PhiA phiA 4 1 10 8 (by norm_num)]
    dsimp only
    rw [List.map_map]
    have hfl : ⌊(4 : ℚ) - 8 * 1⌋ = -4 := by norm_num
    have hrnd : rnd (4 + 8 * 1) = 12 := by norm_num [rnd]
    rw [hfl, hrnd]
    have hmax : max (0 : ℤ) (-4) = 0 := by norm_num
    have hmin : min (8 : ℤ) 12 = 8 := by norm_num
    rw [hmax, hmin]
    have hx : ((arangeZ (0 - 1) (8 + 1)).map
        (clip01 ∘ fun (i : ℤ) => G 10 PhiA phiA (((i : ℚ) + 1/2 - 4) / 1)))[5]?
        = some 1 := by
      rw [List.getElem?_map, arangeZ_getElem? _ _ _ (by norm_num)]
      simp only [Option.map_some', Function.comp_apply]
      norm_num [G, PhiA, phiA, clip01]
    have hy : ((arangeZ (0 - 1) (8 + 1)).map
        (clip01 ∘ fun (i : ℤ) => G 10 PhiA phiA (((i : ℚ) + 1/2 - 4) / 1)))[6]?
        = some (163/240) := by
      rw [List.getElem?_map, arangeZ_getElem? _ _ _ (by norm_num)]
      simp only [Option.map_some', Function.comp_apply]
      norm_num [G, PhiA, phiA, clip01]
    rw [diffList_getElem? _ 5 _ _ hx hy]
    norm_num
  refine ⟨h5, fun h => ?_⟩
  have hmem : (-(77/240) : ℚ)
      ∈ (compute_pmf_approximation PhiA phiA 4 1 10 8).probabilities := by
    obtain ⟨hlt, he⟩ := List.getElem?_eq_some.mp h5
    exact he ▸ List.getElem_mem hlt
  have := h _ hmem
  norm_num at this

/-- Claim C8 amended: the exact path keeps every entry in `[0, 1]` whenever
the input probabilities are in `[0, 1]`; the approximation path only
guarantees entries in `[-1, 1]` (each clipped CDF value is in `[0, 1]`, so
consecutive differences are bounded by 1 in absolute value) — entries can be
negative when the skewness correction makes `G` non-monotone. -/
theorem pmf_entries_bounds :
    (∀ ps : List ℚ, (∀ p ∈ ps, 0 ≤ p ∧ p ≤ 1) →
      ∀ q ∈ (compute_pmf ps).probabilities, 0 ≤ q ∧ q ≤ 1) ∧
    (∀ (Phi phi : ℚ → ℚ) (mean sigma skewness : ℚ) (n : ℤ),
      ∀ q ∈ (compute_pmf_approximation Phi phi mean sigma skewness
          n).probabilities, -1 ≤ q ∧ q ≤ 1) := by
  constructor
  · intro ps hps q hq
    have hnn : ∀ x ∈ (compute_pmf ps).probabilities, 0 ≤ x :=
      foldl_convolveStep_nonneg ps [1] hps (by norm_num)
    refine ⟨hnn q hq, ?_⟩
    have hsum : (compute_pmf ps).probabilities.sum = 1 := by
      simp [compute_pmf, foldl_convolveStep_sum]
    calc q ≤ (compute_pmf ps).probabilities.sum := List.single_le_sum hnn q hq
    _ = 1 := hsum
  · intro Phi phi mean sigma skewness n q hq
    by_cases hs : sigma = 0
    · simp only [compute_pmf_approximation, if_pos hs] at hq
      simp only [List.mem_singleton] at hq
      subst hq
      norm_num
    · rw [compute_pmf_approximation_pos Phi phi mean sigma skewness n hs] at hq
      dsimp only at hq
      refine diffList_bounds _ ?_ q hq
      intro x hx
      rw [List.mem_map] at hx
      obtain ⟨c, _, rfl⟩ := hx
      exact ⟨clip01_nonneg c, clip01_le_one c⟩

/-- Witness for C8 (amended) at the concrete inputs `compute_pmf [1/2]`
(entry 1/2) and the `sigma = 0` point mass (entry 1). -/
theorem pmf_entries_bounds_witness :
    (0 ≤ (1/2 : ℚ) ∧ (1/2 : ℚ) ≤ 1) ∧ (-1 ≤ (1 : ℚ) ∧ (1 : ℚ) ≤ 1) :=
  ⟨pmf_entries_bounds.1 [1/2] (by norm_num) (1/2)
      (by simp only [compute_pmf, convolveStep, List.foldl_cons,
            List.foldl_nil, List.map_cons, List.map_nil, List.cons_append,
            List.nil_append, List.zipWith_cons_cons, List.zipWith_nil_right]
          norm_num),
   pmf_entries_bounds.2 (fun _ => 0) (fun _ => 0) 0 0 0 5 1
      (by simp [compute_pmf_approximation])⟩

lemma diffList_sum :
    ∀ l : List ℚ, (diffList l).sum = l.getLast?.getD 0 - l.head?.getD 0
  | [] => by simp [diffList]
  | [a] => by simp [diffList]
  | a :: b :: t => by
    show ((b - a) :: diffList (b :: t)).sum = _
    rw [List.sum_cons, diffList_sum (b :: t), List.getLast?_cons_cons]
    simp only [List.head?_cons, Option.getD_some]
    ring

lemma arangeZ_head? (a b : ℤ) (h : a < b) : (arangeZ a b).head? = some a := by
  unfold arangeZ
  obtain ⟨m, hm⟩ : ∃ m, (b - a).toNat = m + 1 := ⟨(b - a).toNat - 1, by omega⟩
  rw [hm, List.range_succ_eq_map]
  simp

lemma arangeZ_getLast? (a b : ℤ) (h : a < b) :
    (arangeZ a b).getLast? = some (b - 1) := by
  unfold arangeZ
  obtain ⟨m, hm⟩ : ∃ m, (b - a).toNat = m + 1 := ⟨(b - a).toNat - 1, by omega⟩
  rw [hm, List.range_succ, List.map_append]
  simp only [List.map_cons, List.map_nil, List.getLast?_concat]
  congr 1
  omega

lemma arangeZ_empty (a b : ℤ) (h : b ≤ a) : arangeZ a b = [] := by
  unfold arangeZ
  have : (b - a).toNat = 0 := by omega
  rw [this]
  rfl

/-- The two-step monotone rational stand-ins for the scipy normal CDF and
PDF used in the C10 counterexample; their values are close to the true
`norm.cdf` and `norm.pdf` at the two points where they are sampled. -/
def PhiB : ℚ → ℚ := fun x => if x ≤ -(1/2) then 4/25 else 1/2

/-- Companion PDF stand-in for `PhiB`. -/
def phiB : ℚ → ℚ := fun x => if x ≤ -(1/2) then 6/25 else 2/5

/-- Counterexample to claim C10: the total returned mass can be negative,
hence outside `[0, 1]`. With `mean = 1/2, sigma = 1, skewness = -10, n = 0`
(and CDF/PDF stand-ins near the true normal values at the sampled points)
the returned probabilities sum to `-4/25 < 0`: the clipped corrected CDF is
decreasing across the window, so the telescoped difference is negative. -/
theorem approx_sum_cex :
    (compute_pmf_approximation PhiB phiB (1/2) 1 (-10) 0).probabilities.sum
      = -(4/25) ∧ (-(4/25) : ℚ) < 0 := by
  refine ⟨?_, by norm_num⟩
  rw [compute_pmf_approximation_pos PhiB phiB (1/2) 1 (-10) 0 (by norm_num)]
  dsimp only
  rw [List.map_map]
  have hfl : ⌊(1 : ℚ)/2 - 8 * 1⌋ = -8 := by norm_num
  have hrnd : rnd (1/2 + 8 * 1) = 8 := by
    have h17 : ⌊(1 : ℚ)/2 + 8 * 1⌋ = 8 := by norm_num
    norm_num [rnd, h17]
  rw [hfl, hrnd]
  have hmax : max (0 : ℤ) (-8) = 0 := by norm_num
  have hmin : min (0 : ℤ) 8 = 0 := by norm_num
  rw [hmax, hmin]
  have hrange : arangeZ (0 - 1) (0 + 1) = [-1, 0] := by
    unfold arangeZ
    norm_num
    rw [show Int.toNat 2 = 2 from rfl, show List.range 2 = [0, 1] from rfl]
    simp
  rw [hrange]
  simp only [List.map_cons, List.map_nil, Function.comp_apply]
  rw [show diffList [clip01 (G (-10) PhiB phiB ((((-1 : ℤ) : ℚ) + 1/2 - 1/2) / 1)),
        clip01 (G (-10) PhiB phiB ((((0 : ℤ) : ℚ) + 1/2 - 1/2) / 1))]
      = [clip01 (G (-10) PhiB phiB ((((0 : ℤ) : ℚ) + 1/2 - 1/2) / 1))
          - clip01 (G (-10) PhiB phiB ((((-1 : ℤ) : ℚ) + 1/2 - 1/2) / 1))] from rfl]
  norm_num [G, PhiB, phiB, clip01]

/-- Claim C10 amended: for `sigma ≠ 0`, whenever the window is non-trivial
(`start - 1 ≤ end`) the sum of the returned probabilities telescopes to
`clip01(G((end + 0.5 - mean)/σ)) - clip01(G((start - 0.5 - mean)/σ))`; since
each clipped value is in `[0, 1]` the total mass always lies in `[-1, 1]` —
it never exceeds 1, but it can be negative (it does not always lie in
`[0, 1]`). -/
theorem approx_sum_telescopes (Phi phi : ℚ → ℚ)
    (mean sigma skewness : ℚ) (n : ℤ) (hs : sigma ≠ 0) :
    (max 0 ⌊mean - 8 * sigma⌋ - 1 ≤ min n (rnd (mean + 8 * sigma)) →
      (compute_pmf_approximation Phi phi mean sigma skewness
          n).probabilities.sum
        = clip01 (G skewness Phi phi
            (((min n (rnd (mean + 8 * sigma)) : ℤ) + (1 : ℚ)/2 - mean) / sigma))
          - clip01 (G skewness Phi phi
            (((max 0 ⌊mean - 8 * sigma⌋ : ℤ) - (1 : ℚ)/2 - mean) / sigma))) ∧
    -1 ≤ (compute_pmf_approximation Phi phi mean sigma skewness
        n).probabilities.sum ∧
    (compute_pmf_approximation Phi phi mean sigma skewness
        n).probabilities.sum ≤ 1 := by
  rw [compute_pmf_approximation_pos Phi phi mean sigma skewness n hs]
  dsimp only
  rw [List.map_map]
  by_cases hwin : max 0 ⌊mean - 8 * sigma⌋ - 1 ≤ min n (rnd (mean + 8 * sigma))
  · have hlt : max 0 ⌊mean - 8 * sigma⌋ - 1 < min n (rnd (mean + 8 * sigma)) + 1 := by
      omega
    have hsum : (diffList ((arangeZ (max 0 ⌊mean - 8 * sigma⌋ - 1)
          (min n (rnd (mean + 8 * sigma)) + 1)).map
            (clip01 ∘ fun (i : ℤ) =>
              G skewness Phi phi (((i : ℚ) + 1/2 - mean) / sigma)))).sum
        = clip01 (G skewness Phi phi
            (((min n (rnd (mean + 8 * sigma)) : ℤ) + (1 : ℚ)/2 - mean) / sigma))
          - clip01 (G skewness Phi phi
            (((max 0 ⌊mean - 8 * sigma⌋ : ℤ) - (1 : ℚ)/2 - mean) / sigma)) := by
      rw [diffList_sum, List.getLast?_map, List.head?_map,
        arangeZ_getLast? _ _ hlt, arangeZ_head? _ _ hlt]
      simp only [Option.map_some', Option.getD_some, Function.comp_apply]
      have h1 : ((min n (rnd (mean + 8 * sigma)) + 1 - 1 : ℤ) : ℚ) + 1/2 - mean
          = ((min n (rnd (mean + 8 * sigma)) : ℤ) : ℚ) + 1/2 - mean := by
        push_cast
        ring
      have h2 : ((max 0 ⌊mean - 8 * sigma⌋ - 1 : ℤ) : ℚ) + 1/2 - mean
          = ((max 0 ⌊mean - 8 * sigma⌋ : ℤ) : ℚ) - 1/2 - mean := by
        push_cast
        ring
      rw [h1, h2]
    rw [hsum]
    refine ⟨fun _ => rfl, ?_, ?_⟩
    · have b1 := clip01_nonneg (G skewness Phi phi
        (((min n (rnd (mean + 8 * sigma)) : ℤ) + (1 : ℚ)/2 - mean) / sigma))
      have b2 := clip01_le_one (G skewness Phi phi
        (((max 0 ⌊mean - 8 * sigma⌋ : ℤ) - (1 : ℚ)/2 - mean) / sigma))
      linarith
    · have b1 := clip01_le_one (G skewness Phi phi
        (((min n (rnd (mean + 8 * sigma)) : ℤ) + (1 : ℚ)/2 - mean) / sigma))
      have b2 := clip01_nonneg (G skewness Phi phi
        (((max 0 ⌊mean - 8 * sigma⌋ : ℤ) - (1 : ℚ)/2 - mean) / sigma))
      linarith
  · have hempty : arangeZ (max 0 ⌊mean - 8 * sigma⌋ - 1)
        (min n (rnd (mean + 8 * sigma)) + 1) = [] :=
      arangeZ_empty _ _ (by omega)
    rw [hempty]
    refine ⟨fun hcon => absurd hcon hwin, by norm_num [diffList], by norm_num [diffList]⟩

/-- Witness for C10 (amended) at `sigma = 1` with the zero CDF/PDF. -/
theorem approx_sum_telescopes_witness :
    -1 ≤ (compute_pmf_approximation (fun _ => 0) (fun _ => 0) 0 1 0
        3).probabilities.sum ∧
    (compute_pmf_approximation (fun _ => 0) (fun _ => 0) 0 1 0
        3).probabilities.sum ≤ 1 :=
  ⟨(approx_sum_telescopes (fun _ => 0) (fun _ => 0) 0 1 0 3 (by norm_num)).2.1,
   (approx_sum_telescopes (fun _ => 0) (fun _ => 0) 0 1 0 3 (by norm_num)).2.2⟩

end PoissonBinomial
